import Mathlib

/-!
Shallow embedding of `src/prd-video/scripts/generate_srt.py` and proofs of the
spec's claims about it.

Modelling choices:
* Python strings are `List Char` (Python iterates strings by code point, and
  `len` counts code points).
* Python floats are `ℚ` (exact rational arithmetic; the spec's floating-point
  tolerance clauses become exact equalities).
* The script's two loops (`for ch in text` in `split_narration`, and the
  scene/segment loops in `generate_srt`) become `List.foldl` over explicit
  state structures mirroring the script's local variables.
-/

namespace GenerateSrt

/-- The whitespace characters recognised by Python's `str.strip()` and
`str.isspace()` (ASCII whitespace plus the Unicode space code points). -/
def pyIsSpace (c : Char) : Bool :=
  [' ', '\t', '\n', '\r', '\x0b', '\x0c',
   '\x1c', '\x1d', '\x1e', '\x1f', '\x85', '\xa0',
   ' ', ' ', ' ', ' ', ' ', ' ', ' ',
   ' ', ' ', ' ', ' ', ' ',
   ' ', ' ', ' ', ' ', '　'].contains c

/-- Python `str.strip()` on a character list: drop whitespace from both ends. -/
def pyStrip (l : List Char) : List Char :=
  ((l.dropWhile pyIsSpace).reverse.dropWhile pyIsSpace).reverse

/-- The delimiter set of `split_narration`: full-width and half-width
sentence and clause punctuation. -/
def delimiters : List Char := "。，；！？、.,;!?".data

/-- Loop state of `split_narration`: the emitted `segments`, the accumulating
`current` buffer, and the `current_len` counter the script maintains. -/
structure SplitState where
  segments : List (List Char)
  current : List Char
  current_len : Nat

/-- Closing the buffer: `seg = "".join(current).strip()`; append if non-empty. -/
def pushSeg (segments : List (List Char)) (current : List Char) : List (List Char) :=
  let seg := pyStrip current
  if seg = [] then segments else segments ++ [seg]

/-- One iteration of the `for ch in text` loop of `split_narration`. -/
def splitStep (max_len : Nat) (st : SplitState) (ch : Char) : SplitState :=
  let current := st.current ++ [ch]
  let current_len := st.current_len + 1
  if ch ∈ delimiters ∧ 5 ≤ current_len then
    ⟨pushSeg st.segments current, [], 0⟩
  else if max_len ≤ current_len then
    ⟨pushSeg st.segments current, [], 0⟩
  else
    ⟨st.segments, current, current_len⟩

/-- Merging the remainder: extend the last element of the list, mirroring the
statement assigning to the final entry of `segments`. -/
def appendToLast : List (List Char) → List Char → List (List Char)
  | [], _ => []
  | [s], rem => [s ++ rem]
  | s :: t :: rest, rem => s :: appendToLast (t :: rest) rem

/-- The end-of-input block of `split_narration` (`if current: ...`). -/
def splitFinish (segments : List (List Char)) (current : List Char) :
    List (List Char) :=
  if current = [] then segments
  else
    let remaining := pyStrip current
    if remaining = [] then segments
    else if segments ≠ [] ∧ remaining.length < 5 then appendToLast segments remaining
    else segments ++ [remaining]

/-- The loop state of `split_narration` after scanning all of `text`. -/
def splitRun (max_len : Nat) (text : List Char) : SplitState :=
  text.foldl (splitStep max_len) ⟨[], [], 0⟩

/-- Model of `split_narration` with default `max_len` 20: scan, finish, then the final
comprehension `[s for s in segments if s.strip()]`. -/
def split_narration (text : List Char) (max_len : Nat := 20) : List (List Char) :=
  let st := splitRun max_len text
  (splitFinish st.segments st.current).filter (fun s => !(pyStrip s).isEmpty)

/-- Floor of a rational.  Python `//` is floor division, and `int()` applied to
the non-negative results of `%` agrees with floor; `q.num / q.den` uses `ℤ`
division with a positive denominator, which is exactly the floor. -/
def ratFloor (q : ℚ) : ℤ := q.num / q.den

/-- Python `a % b` on rationals: `a - b * (a // b)` (result has `b`'s sign). -/
def pyMod (a b : ℚ) : ℚ := a - b * (ratFloor (a / b) : ℚ)

/-- Zero-padding of a natural number to width `w`, as Python format specs do. -/
def zpadNat (w : Nat) (n : Nat) : String :=
  let s := toString n
  String.mk (List.replicate (w - s.length) '0') ++ s

/-- Zero-padding of an integer to width `w`; the sign occupies one column. -/
def zpad (w : Nat) (n : ℤ) : String :=
  if n < 0 then "-" ++ zpadNat (w - 1) n.natAbs else zpadNat w n.natAbs

/-- Model of `format_srt_time`: render seconds as `HH:MM:SS,mmm`. -/
def format_srt_time (seconds : ℚ) : String :=
  let hours := ratFloor (seconds / 3600)
  let minutes := ratFloor (pyMod seconds 3600 / 60)
  let secs := ratFloor (pyMod seconds 60)
  let millis := ratFloor (pyMod seconds 1 * 1000)
  zpad 2 hours ++ ":" ++ zpad 2 minutes ++ ":" ++ zpad 2 secs ++ "," ++ zpad 3 millis

/-- One input scene: `narration` text and `durationSeconds`. -/
structure Scene where
  narration : List Char
  durationSeconds : ℚ

/-- A subtitle cue (spec §3): 1-based global index, start/end seconds, text. -/
structure Cue where
  index : Nat
  startSeconds : ℚ
  endSeconds : ℚ
  text : List Char
deriving DecidableEq

/-- Loop state of `generate_srt`: `lines`, `subtitle_index`, `cum_time`. -/
structure GenState where
  lines : List String
  subtitle_index : Nat
  cum_time : ℚ

/-- The body of `for seg in segments` in `generate_srt`: allocate the
proportional duration, render the four lines, advance clock and index. -/
def lineStep (duration : ℚ) (total_chars : Nat) (st : GenState)
    (seg : List Char) : GenState :=
  let ratio : ℚ := (seg.length : ℚ) / ((max total_chars 1 : Nat) : ℚ)
  let seg_duration := duration * ratio
  let start_ts := format_srt_time st.cum_time
  let end_ts := format_srt_time (st.cum_time + seg_duration)
  { lines := st.lines ++ [toString st.subtitle_index,
      start_ts ++ " --> " ++ end_ts, String.mk seg, ""],
    subtitle_index := st.subtitle_index + 1,
    cum_time := st.cum_time + seg_duration }

/-- The body of `for scene in scenes` in `generate_srt`. -/
def processScene (st : GenState) (scene : Scene) : GenState :=
  if pyStrip scene.narration = [] then
    { st with cum_time := st.cum_time + scene.durationSeconds }
  else
    let segments := split_narration scene.narration 20
    let total_chars := (segments.map List.length).sum
    segments.foldl (lineStep scene.durationSeconds total_chars) st

/-- Model of `generate_srt`: fold over the scenes, then join the lines with
newline separators. -/
def generate_srt (scenes : List Scene) : String :=
  String.intercalate "\n" ((scenes.foldl processScene ⟨[], 1, 0⟩).lines)

/-- Duration allocated to one segment:
`seg_duration = duration * (len(seg) / max(total_chars, 1))`. -/
def segDuration (duration : ℚ) (total_chars : Nat) (seg : List Char) : ℚ :=
  duration * ((seg.length : ℚ) / ((max total_chars 1 : Nat) : ℚ))

/-- Abstract view of `generate_srt`'s loop state: structured cues in place of
rendered lines, with the same `subtitle_index` and `cum_time`. -/
structure CueState where
  cues : List Cue
  subtitle_index : Nat
  cum_time : ℚ

/-- Cue-level mirror of `lineStep`: identical arithmetic, recording the cue's
index, start, end and text instead of rendered lines. -/
def cueStep (duration : ℚ) (total_chars : Nat) (st : CueState)
    (seg : List Char) : CueState :=
  let seg_duration := segDuration duration total_chars seg
  { cues := st.cues ++
      [⟨st.subtitle_index, st.cum_time, st.cum_time + seg_duration, seg⟩],
    subtitle_index := st.subtitle_index + 1,
    cum_time := st.cum_time + seg_duration }

/-- Cue-level mirror of `processScene`: identical control flow and arithmetic,
recording each cue's index, start, end and text instead of rendered lines. -/
def processSceneCues (st : CueState) (scene : Scene) : CueState :=
  if pyStrip scene.narration = [] then
    { st with cum_time := st.cum_time + scene.durationSeconds }
  else
    let segments := split_narration scene.narration 20
    let total_chars := (segments.map List.length).sum
    segments.foldl (cueStep scene.durationSeconds total_chars) st

/-- All cues produced from a scene list (starting from index 1, clock 0). -/
def generateCues (scenes : List Scene) : List Cue :=
  (scenes.foldl processSceneCues ⟨[], 1, 0⟩).cues

/-- The cumulative clock after processing all scenes. -/
def finalClock (scenes : List Scene) : ℚ :=
  (scenes.foldl processSceneCues ⟨[], 1, 0⟩).cum_time

/-- The four rendered lines of one cue. -/
def cueLines (c : Cue) : List String :=
  [toString c.index,
   format_srt_time c.startSeconds ++ " --> " ++ format_srt_time c.endSeconds,
   String.mk c.text, ""]

/-! ### Whitespace and `pyStrip` lemmas -/

/-- The non-whitespace content of a string, the observer used by the spec's
reconstruction property. -/
def dropSpaces (l : List Char) : List Char := l.filter (fun c => !pyIsSpace c)

/-- Invariant giving the `maxLen` length bound: the counter tracks the buffer,
the buffer stays strictly below `maxLen`, every emitted segment is `≤ maxLen`. -/
def LenInv (m : Nat) (st : SplitState) : Prop :=
  st.current_len = st.current.length ∧ st.current.length < m ∧
    ∀ s ∈ st.segments, s.length ≤ m

/-- Invariant for delimiter-free, whitespace-free input: every emitted segment
has length exactly `maxLen` and the buffer holds only non-space characters. -/
def ChunkInv (m : Nat) (st : SplitState) : Prop :=
  st.current_len = st.current.length ∧ st.current.length < m ∧
    (∀ s ∈ st.segments, s.length = m) ∧ ∀ c ∈ st.current, pyIsSpace c = false

/-- The cues the segment fold emits, starting at index `idx` and clock `cum`. -/
def cueSeq (dur : ℚ) (T : Nat) : Nat → ℚ → List (List Char) → List Cue
  | _, _, [] => []
  | idx, cum, s :: rest =>
    ⟨idx, cum, cum + segDuration dur T s, s⟩ ::
      cueSeq dur T (idx + 1) (cum + segDuration dur T s) rest

/-- Index bookkeeping: the next index is one past the cues emitted so far, and
the emitted indices are exactly `1, 2, 3, ...`. -/
def IndexInv (st : CueState) : Prop :=
  st.subtitle_index = 1 + st.cues.length ∧
    st.cues.map Cue.index = List.range' 1 st.cues.length

/-- Monotonicity bookkeeping: starts are non-decreasing, every cue starts no
later than it ends, and everything lies at or before the running clock. -/
def MonoInv (st : CueState) : Prop :=
  List.Chain' (fun a b => a.startSeconds ≤ b.startSeconds) st.cues ∧
    ∀ c ∈ st.cues, c.startSeconds ≤ st.cum_time ∧ c.startSeconds ≤ c.endSeconds

/-- The rendered `lines` list accumulated by `generate_srt`'s loop. -/
def srtLines (scenes : List Scene) : List String :=
  (scenes.foldl processScene ⟨[], 1, 0⟩).lines

/-- Relation stating that `GenState` and `CueState` agree: the rendered lines are the flattened
per-cue blocks, with the same index counter and clock. -/
def LinesRel (g : GenState) (c : CueState) : Prop :=
  g.lines = c.cues.flatMap cueLines ∧ g.subtitle_index = c.subtitle_index
    ∧ g.cum_time = c.cum_time

lemma dropSpaces_append (a b : List Char) :
    dropSpaces (a ++ b) = dropSpaces a ++ dropSpaces b := by
  unfold dropSpaces
  exact List.filter_append a b

lemma dropSpaces_dropWhile (l : List Char) :
    dropSpaces (l.dropWhile pyIsSpace) = dropSpaces l := by
  induction l with
  | nil => rfl
  | cons c t ih =>
    by_cases h : pyIsSpace c
    · simpa [dropSpaces, List.dropWhile_cons, h, List.filter_cons] using ih
    · simp [List.dropWhile_cons, h]

lemma dropSpaces_reverse (l : List Char) :
    dropSpaces l.reverse = (dropSpaces l).reverse :=
  List.filter_reverse _ _

lemma dropSpaces_pyStrip (l : List Char) : dropSpaces (pyStrip l) = dropSpaces l := by
  unfold pyStrip
  rw [dropSpaces_reverse, dropSpaces_dropWhile, dropSpaces_reverse,
    List.reverse_reverse, dropSpaces_dropWhile]

lemma pyStrip_sublist (l : List Char) : List.Sublist (pyStrip l) l := by
  unfold pyStrip
  have h1 : List.Sublist ((l.dropWhile pyIsSpace).reverse.dropWhile pyIsSpace)
      (l.dropWhile pyIsSpace).reverse := List.dropWhile_sublist _
  have h2 := h1.reverse
  rw [List.reverse_reverse] at h2
  exact h2.trans (List.dropWhile_sublist _)

lemma pyStrip_subset (l : List Char) : pyStrip l ⊆ l :=
  (pyStrip_sublist l).subset

lemma pyStrip_length_le (l : List Char) : (pyStrip l).length ≤ l.length :=
  (pyStrip_sublist l).length_le

lemma pyStrip_eq_nil_iff {l : List Char} : pyStrip l = [] ↔ dropSpaces l = [] := by
  constructor
  · intro h
    have := dropSpaces_pyStrip l
    rw [h] at this
    exact this.symm
  · intro h
    have hall : ∀ c ∈ l, pyIsSpace c := by
      intro c hc
      have := List.filter_eq_nil_iff.mp h c hc
      simpa using this
    have h1 : l.dropWhile pyIsSpace = [] := List.dropWhile_eq_nil_iff.mpr hall
    unfold pyStrip
    rw [h1]
    rfl

lemma dropSpaces_ne_nil_iff {l : List Char} :
    dropSpaces l ≠ [] ↔ ∃ c ∈ l, pyIsSpace c = false := by
  constructor
  · intro h
    by_contra hno
    push_neg at hno
    apply h
    apply List.filter_eq_nil_iff.mpr
    intro c hc
    simp [hno c hc]
  · rintro ⟨c, hc, hcs⟩ h
    have := List.filter_eq_nil_iff.mp h c hc
    simp [hcs] at this

lemma pyStrip_eq_self_of_nonspace {l : List Char}
    (h : ∀ c ∈ l, pyIsSpace c = false) : pyStrip l = l := by
  have hdw : ∀ m : List Char, (∀ c ∈ m, pyIsSpace c = false) →
      m.dropWhile pyIsSpace = m := by
    intro m hm
    match m with
    | [] => rfl
    | c :: t =>
      have : ¬ pyIsSpace c := by simp [hm c (List.mem_cons_self c t)]
      simp [List.dropWhile_cons, this]
  unfold pyStrip
  rw [hdw l h, hdw l.reverse (fun c hc => h c (List.mem_reverse.mp hc)),
    List.reverse_reverse]

lemma dropSpaces_eq_self_of_nonspace {l : List Char}
    (h : ∀ c ∈ l, pyIsSpace c = false) : dropSpaces l = l := by
  apply List.filter_eq_self.mpr
  intro c hc
  simp [h c hc]

/-! ### Loop invariants of `split_narration` -/

lemma dropSpaces_nil : dropSpaces [] = [] := rfl

lemma dropSpaces_cons (c : Char) (t : List Char) :
    dropSpaces (c :: t) = if pyIsSpace c then dropSpaces t else c :: dropSpaces t := by
  by_cases h : pyIsSpace c <;> simp [dropSpaces, List.filter_cons, h]

lemma space_of_strip_drop {cur : List Char} {ch : Char}
    (h : pyStrip (cur ++ [ch]) = []) :
    dropSpaces cur = [] ∧ pyIsSpace ch = true := by
  have hnil := pyStrip_eq_nil_iff.mp h
  rw [dropSpaces_append] at hnil
  rcases List.append_eq_nil.mp hnil with ⟨hc, hch⟩
  refine ⟨hc, ?_⟩
  by_contra hn
  simp only [Bool.not_eq_true] at hn
  simp [dropSpaces_cons, hn, dropSpaces] at hch

lemma splitStep_recon (m : Nat) (st : SplitState) (ch : Char) (rest : List Char) :
    dropSpaces ((splitStep m st ch).segments.flatten
        ++ ((splitStep m st ch).current ++ rest))
      = dropSpaces (st.segments.flatten ++ (st.current ++ (ch :: rest))) := by
  unfold splitStep pushSeg
  dsimp only
  split_ifs with h1 h2 h3 h4
  · -- delimiter close, whitespace-only buffer dropped
    rcases space_of_strip_drop h2 with ⟨hc, hsp⟩
    simp [dropSpaces_append, dropSpaces_cons, hc, hsp]
  · -- delimiter close, segment pushed
    by_cases hsp : pyIsSpace ch <;>
      simp [dropSpaces_append, dropSpaces_pyStrip, dropSpaces_cons, hsp, dropSpaces_nil]
  · -- length close, whitespace-only buffer dropped
    rcases space_of_strip_drop h4 with ⟨hc, hsp⟩
    simp [dropSpaces_append, dropSpaces_cons, hc, hsp]
  · -- length close, segment pushed
    by_cases hsp : pyIsSpace ch <;>
      simp [dropSpaces_append, dropSpaces_pyStrip, dropSpaces_cons, hsp, dropSpaces_nil]
  · -- no close: buffer grows
    simp

lemma foldl_splitStep_recon (m : Nat) (text : List Char) : ∀ (st : SplitState),
    dropSpaces ((text.foldl (splitStep m) st).segments.flatten
        ++ (text.foldl (splitStep m) st).current)
      = dropSpaces (st.segments.flatten ++ (st.current ++ text)) := by
  induction text with
  | nil => intro st; simp
  | cons c t ih =>
    intro st
    rw [List.foldl_cons]
    calc dropSpaces ((t.foldl (splitStep m) (splitStep m st c)).segments.flatten
            ++ (t.foldl (splitStep m) (splitStep m st c)).current)
        = dropSpaces ((splitStep m st c).segments.flatten
            ++ ((splitStep m st c).current ++ t)) := ih (splitStep m st c)
      _ = dropSpaces (st.segments.flatten ++ (st.current ++ (c :: t))) :=
          splitStep_recon m st c t

lemma splitStep_subset (m : Nat) (st : SplitState) (ch : Char) (rest : List Char) :
    (splitStep m st ch).segments.flatten ++ ((splitStep m st ch).current ++ rest)
      ⊆ st.segments.flatten ++ (st.current ++ (ch :: rest)) := by
  have key : ∀ x : Char, x ∈ pyStrip (st.current ++ [ch]) →
      x ∈ st.current ∨ x = ch := by
    intro x hx
    have := pyStrip_subset _ hx
    simpa using this
  unfold splitStep pushSeg
  dsimp only
  split_ifs with h1 h2 h3 h4 <;> intro x hx <;>
    simp only [List.mem_append, List.flatten_append, List.flatten_cons,
      List.flatten_nil, List.append_nil, List.nil_append, List.mem_cons,
      List.mem_singleton, List.not_mem_nil, false_or, or_false] at hx ⊢ <;>
    have hk := key x <;> tauto

lemma foldl_splitStep_subset (m : Nat) (text : List Char) : ∀ (st : SplitState),
    (text.foldl (splitStep m) st).segments.flatten
        ++ (text.foldl (splitStep m) st).current
      ⊆ st.segments.flatten ++ (st.current ++ text) := by
  induction text with
  | nil => intro st; simp
  | cons c t ih =>
    intro st
    rw [List.foldl_cons]
    intro x hx
    have h1 := ih (splitStep m st c)
    have h2 : x ∈ (splitStep m st c).segments.flatten
        ++ ((splitStep m st c).current ++ t) := by
      have := h1 hx
      simpa [List.append_assoc] using this
    exact splitStep_subset m st c t h2

lemma splitStep_segsOk {m : Nat} {st : SplitState} {ch : Char}
    (h : ∀ s ∈ st.segments, dropSpaces s ≠ []) :
    ∀ s ∈ (splitStep m st ch).segments, dropSpaces s ≠ [] := by
  have hpush : ∀ s ∈ pushSeg st.segments (st.current ++ [ch]), dropSpaces s ≠ [] := by
    intro s hs
    unfold pushSeg at hs
    dsimp only at hs
    split_ifs at hs with hemp
    · exact h s hs
    · rcases List.mem_append.mp hs with h' | h'
      · exact h s h'
      · rw [List.mem_singleton] at h'
        subst h'
        rw [dropSpaces_pyStrip]
        intro hnil
        exact hemp (pyStrip_eq_nil_iff.mpr hnil)
  unfold splitStep
  dsimp only
  split_ifs with h1 h3
  · exact hpush
  · exact hpush
  · exact h

lemma foldl_splitStep_segsOk (m : Nat) (text : List Char) : ∀ (st : SplitState),
    (∀ s ∈ st.segments, dropSpaces s ≠ []) →
    ∀ s ∈ (text.foldl (splitStep m) st).segments, dropSpaces s ≠ [] := by
  induction text with
  | nil => intro st h; exact h
  | cons c t ih =>
    intro st h
    rw [List.foldl_cons]
    exact ih (splitStep m st c) (splitStep_segsOk h)

lemma splitStep_lenInv {m : Nat} {st : SplitState} {ch : Char} (hm : 1 ≤ m)
    (h : LenInv m st) : LenInv m (splitStep m st ch) := by
  rcases h with ⟨hcnt, hlt, hsegs⟩
  have hlen : (st.current ++ [ch]).length ≤ m := by
    simp only [List.length_append, List.length_singleton]
    omega
  have hpush : ∀ s ∈ pushSeg st.segments (st.current ++ [ch]), s.length ≤ m := by
    intro s hs
    unfold pushSeg at hs
    dsimp only at hs
    split_ifs at hs with hemp
    · exact hsegs s hs
    · rcases List.mem_append.mp hs with h' | h'
      · exact hsegs s h'
      · rw [List.mem_singleton] at h'
        subst h'
        exact le_trans (pyStrip_length_le _) hlen
  unfold splitStep
  dsimp only
  split_ifs with h1 h3
  · exact ⟨rfl, by simpa using hm, hpush⟩
  · exact ⟨rfl, by simpa using hm, hpush⟩
  · refine ⟨by simp [hcnt], ?_, hsegs⟩
    simp only [List.length_append, List.length_singleton]
    omega

lemma foldl_splitStep_lenInv (m : Nat) (text : List Char) (hm : 1 ≤ m) :
    ∀ (st : SplitState), LenInv m st → LenInv m (text.foldl (splitStep m) st) := by
  induction text with
  | nil => intro st h; exact h
  | cons c t ih =>
    intro st h
    rw [List.foldl_cons]
    exact ih (splitStep m st c) (splitStep_lenInv hm h)

lemma splitStep_chunkInv {m : Nat} {st : SplitState} {ch : Char} (hm : 1 ≤ m)
    (hch : ch ∉ delimiters) (hsp : pyIsSpace ch = false)
    (h : ChunkInv m st) : ChunkInv m (splitStep m st ch) := by
  rcases h with ⟨hcnt, hlt, hsegs, hns⟩
  have hns' : ∀ c ∈ st.current ++ [ch], pyIsSpace c = false := by
    intro c hc
    rcases List.mem_append.mp hc with h' | h'
    · exact hns c h'
    · rw [List.mem_singleton] at h'
      subst h'
      exact hsp
  unfold splitStep
  dsimp only
  split_ifs with h1 h3
  · exact absurd h1.1 hch
  · -- force split at exactly `maxLen` characters
    have hexact : (st.current ++ [ch]).length = m := by
      simp only [List.length_append, List.length_singleton]
      omega
    have hstrip : pyStrip (st.current ++ [ch]) = st.current ++ [ch] :=
      pyStrip_eq_self_of_nonspace hns'
    refine ⟨rfl, by simpa using hm, ?_, by simp⟩
    intro s hs
    unfold pushSeg at hs
    dsimp only at hs
    rw [hstrip] at hs
    split_ifs at hs with hemp
    · exact hsegs s hs
    · rcases List.mem_append.mp hs with h' | h'
      · exact hsegs s h'
      · rw [List.mem_singleton] at h'
        subst h'
        exact hexact
  · refine ⟨by simp [hcnt], ?_, hsegs, hns'⟩
    simp only [List.length_append, List.length_singleton]
    omega

lemma foldl_splitStep_chunkInv (m : Nat) (text : List Char) (hm : 1 ≤ m) :
    ∀ (st : SplitState),
    (∀ c ∈ text, c ∉ delimiters ∧ pyIsSpace c = false) →
    ChunkInv m st → ChunkInv m (text.foldl (splitStep m) st) := by
  induction text with
  | nil => intro st _ h; exact h
  | cons c t ih =>
    intro st htext h
    rw [List.foldl_cons]
    refine ih (splitStep m st c) (fun x hx => htext x (List.mem_cons_of_mem c hx)) ?_
    have hc := htext c (List.mem_cons_self c t)
    exact splitStep_chunkInv hm hc.1 hc.2 h

/-- A buffer-plus-input too short to trigger any split just accumulates. -/
lemma foldl_splitStep_small (m : Nat) (text : List Char) : ∀ (st : SplitState),
    st.current_len = st.current.length →
    st.current_len + text.length < 5 → st.current_len + text.length < m →
    text.foldl (splitStep m) st =
      ⟨st.segments, st.current ++ text, st.current_len + text.length⟩ := by
  induction text with
  | nil =>
    intro st hcnt _ _
    cases st
    simp_all
  | cons c t ih =>
    intro st hcnt h5 hm
    rw [List.foldl_cons]
    have hstep : splitStep m st c = ⟨st.segments, st.current ++ [c], st.current_len + 1⟩ := by
      unfold splitStep
      dsimp only
      have hn5 : ¬ (c ∈ delimiters ∧ 5 ≤ st.current_len + 1) := by
        rintro ⟨-, hge⟩
        simp only [List.length_cons] at h5
        omega
      have hnm : ¬ m ≤ st.current_len + 1 := by
        simp only [List.length_cons] at hm
        omega
      rw [if_neg hn5, if_neg hnm]
    rw [hstep]
    have := ih ⟨st.segments, st.current ++ [c], st.current_len + 1⟩
      (by simp [hcnt])
      (by show st.current_len + 1 + t.length < 5
          simp only [List.length_cons] at h5
          omega)
      (by show st.current_len + 1 + t.length < m
          simp only [List.length_cons] at hm
          omega)
    rw [this]
    simp only [List.length_cons, List.append_assoc, List.singleton_append]
    congr 1
    omega

/-! ### End-of-input handling -/

lemma appendToLast_eq {segs : List (List Char)} (h : segs ≠ []) (rem : List Char) :
    appendToLast segs rem = segs.dropLast ++ [segs.getLast h ++ rem] := by
  induction segs with
  | nil => exact absurd rfl h
  | cons s t ih =>
    cases t with
    | nil => simp [appendToLast]
    | cons s' t' =>
      simp only [appendToLast]
      rw [ih (by simp)]
      simp [List.getLast_cons]

lemma flatten_appendToLast {segs : List (List Char)} (h : segs ≠ []) (rem : List Char) :
    (appendToLast segs rem).flatten = segs.flatten ++ rem := by
  rw [appendToLast_eq h rem]
  conv_rhs => rw [← List.dropLast_concat_getLast h]
  simp

lemma mem_appendToLast {segs : List (List Char)} (h : segs ≠ []) {rem s : List Char}
    (hs : s ∈ appendToLast segs rem) :
    s ∈ segs.dropLast ∨ s = segs.getLast h ++ rem := by
  rw [appendToLast_eq h rem] at hs
  rcases List.mem_append.mp hs with h' | h'
  · exact Or.inl h'
  · rw [List.mem_singleton] at h'
    exact Or.inr h'

lemma splitFinish_segsOk {segs : List (List Char)} {cur : List Char}
    (h : ∀ s ∈ segs, dropSpaces s ≠ []) :
    ∀ s ∈ splitFinish segs cur, dropSpaces s ≠ [] := by
  unfold splitFinish
  dsimp only
  split_ifs with hc hr hm
  · exact h
  · exact h
  · intro s hs
    rcases mem_appendToLast hm.1 hs with h' | h'
    · exact h s (List.dropLast_sublist segs |>.subset h')
    · subst h'
      rw [dropSpaces_append]
      intro hnil
      rcases List.append_eq_nil.mp hnil with ⟨h1, -⟩
      exact h _ (List.getLast_mem hm.1) h1
  · intro s hs
    rcases List.mem_append.mp hs with h' | h'
    · exact h s h'
    · rw [List.mem_singleton] at h'
      subst h'
      rw [dropSpaces_pyStrip]
      intro hnil
      exact hr (pyStrip_eq_nil_iff.mpr hnil)

/-- The final comprehension `[s for s in segments if s.strip()]` keeps every
element reached from the loop state: all of them contain a non-space char. -/
lemma split_eq_finish (text : List Char) (m : Nat) :
    split_narration text m
      = splitFinish (splitRun m text).segments (splitRun m text).current := by
  unfold split_narration
  dsimp only
  apply List.filter_eq_self.mpr
  intro s hs
  have hok : ∀ x ∈ (splitRun m text).segments, dropSpaces x ≠ [] := by
    unfold splitRun
    exact foldl_splitStep_segsOk m text ⟨[], [], 0⟩ (by intro x hx; cases hx)
  have := splitFinish_segsOk hok s hs
  simp only [Bool.not_eq_true', Bool.not_eq_false, List.isEmpty_eq_false]
  intro hnil
  exact this (pyStrip_eq_nil_iff.mp hnil)

lemma splitFinish_cases (segs : List (List Char)) (cur : List Char) :
    (dropSpaces cur = [] ∧ splitFinish segs cur = segs)
    ∨ (segs ≠ [] ∧ pyStrip cur ≠ [] ∧ (pyStrip cur).length < 5 ∧
        splitFinish segs cur = appendToLast segs (pyStrip cur))
    ∨ (pyStrip cur ≠ [] ∧ (segs = [] ∨ 5 ≤ (pyStrip cur).length) ∧
        splitFinish segs cur = segs ++ [pyStrip cur]) := by
  unfold splitFinish
  dsimp only
  split_ifs with hc hr hm
  · exact Or.inl ⟨by rw [hc]; rfl, rfl⟩
  · exact Or.inl ⟨pyStrip_eq_nil_iff.mp hr, rfl⟩
  · exact Or.inr (Or.inl ⟨hm.1, hr, hm.2, rfl⟩)
  · refine Or.inr (Or.inr ⟨hr, ?_, rfl⟩)
    by_cases hs : segs = []
    · exact Or.inl hs
    · right
      rcases not_and_or.mp hm with h | h
      · exact absurd hs (by simpa using h)
      · omega

/-- The `LenInv` invariant holds for the final loop state of `split_narration`. -/
lemma splitRun_lenInv (text : List Char) (max_len : Nat) (hm : 1 ≤ max_len) :
    LenInv max_len (splitRun max_len text) := by
  unfold splitRun
  refine foldl_splitStep_lenInv max_len text hm ⟨[], [], 0⟩ ⟨rfl, ?_, ?_⟩
  · simpa using hm
  · intro s hs
    cases hs

/-- Claim C5: concatenating all segments of `split_narration`, in order,
reproduces exactly the non-whitespace characters of the input, in order
(trimming and dropping whitespace-only chunks remove only whitespace). -/
theorem split_narration_reconstruction (text : List Char) (max_len : Nat) :
    dropSpaces (split_narration text max_len).flatten = dropSpaces text := by
  rw [split_eq_finish]
  have hrec : dropSpaces ((splitRun max_len text).segments.flatten
      ++ (splitRun max_len text).current) = dropSpaces text := by
    unfold splitRun
    have := foldl_splitStep_recon max_len text ⟨[], [], 0⟩
    simpa using this
  rw [dropSpaces_append] at hrec
  rcases splitFinish_cases (splitRun max_len text).segments
      (splitRun max_len text).current with ⟨hcur, heq⟩ | ⟨hne, -, -, heq⟩ |
      ⟨-, -, heq⟩
  · rw [heq]
    rw [hcur, List.append_nil] at hrec
    exact hrec
  · rw [heq, flatten_appendToLast hne, dropSpaces_append, dropSpaces_pyStrip]
    exact hrec
  · rw [heq, List.flatten_append]
    simp only [List.flatten_cons, List.flatten_nil, List.append_nil]
    rw [dropSpaces_append, dropSpaces_pyStrip]
    exact hrec

/-- Claim C2: with `maxLen = N ≥ 1`, every segment except possibly the last has
length `≤ N` (and even the merged last exceeds `N` by fewer than 5 characters);
on a delimiter-free whitespace-free run the forced splits land at exactly `N`
characters, so every non-final segment has length exactly `N`. -/
theorem split_narration_length_bound (text : List Char) (max_len : Nat)
    (hm : 1 ≤ max_len) :
    (∀ s ∈ (split_narration text max_len).dropLast, s.length ≤ max_len)
    ∧ (∀ s ∈ split_narration text max_len, s.length ≤ max_len + 4)
    ∧ ((∀ c ∈ text, c ∉ delimiters ∧ pyIsSpace c = false) →
        ∀ s ∈ (split_narration text max_len).dropLast, s.length = max_len) := by
  rcases splitRun_lenInv text max_len hm with ⟨-, hlt, hsegs⟩
  have hsplit := split_eq_finish text max_len
  rcases splitFinish_cases (splitRun max_len text).segments
      (splitRun max_len text).current with ⟨-, heq⟩ | ⟨hne, -, hfrag, heq⟩ |
      ⟨-, -, heq⟩
  · rw [heq] at hsplit
    refine ⟨?_, ?_, ?_⟩
    · intro s hs
      exact hsegs s ((List.dropLast_sublist _).subset (hsplit ▸ hs))
    · intro s hs
      exact le_trans (hsegs s (hsplit ▸ hs)) (by omega)
    · intro hfree s hs
      rcases foldl_splitStep_chunkInv max_len text hm ⟨[], [], 0⟩ hfree
          ⟨rfl, by simpa using hm, (by intro x hx; cases hx), (by intro x hx; cases hx)⟩
        with ⟨-, -, hchunk, -⟩
      exact hchunk s ((List.dropLast_sublist _).subset (hsplit ▸ hs))
  · rw [heq, appendToLast_eq hne] at hsplit
    refine ⟨?_, ?_, ?_⟩
    · intro s hs
      rw [hsplit, List.dropLast_concat] at hs
      exact hsegs s ((List.dropLast_sublist _).subset hs)
    · intro s hs
      rw [hsplit] at hs
      rcases List.mem_append.mp hs with h' | h'
      · exact le_trans (hsegs s ((List.dropLast_sublist _).subset h')) (by omega)
      · rw [List.mem_singleton] at h'
        subst h'
        rw [List.length_append]
        have := hsegs _ (List.getLast_mem hne)
        omega
    · intro hfree s hs
      rcases foldl_splitStep_chunkInv max_len text hm ⟨[], [], 0⟩ hfree
          ⟨rfl, by simpa using hm, (by intro x hx; cases hx), (by intro x hx; cases hx)⟩
        with ⟨-, -, hchunk, -⟩
      rw [hsplit, List.dropLast_concat] at hs
      exact hchunk s ((List.dropLast_sublist _).subset hs)
  · rw [heq] at hsplit
    have hrem : (pyStrip (splitRun max_len text).current).length ≤ max_len :=
      le_trans (pyStrip_length_le _) (le_of_lt hlt)
    refine ⟨?_, ?_, ?_⟩
    · intro s hs
      rw [hsplit, List.dropLast_concat] at hs
      exact hsegs s hs
    · intro s hs
      rw [hsplit] at hs
      rcases List.mem_append.mp hs with h' | h'
      · exact le_trans (hsegs s h') (by omega)
      · rw [List.mem_singleton] at h'
        subst h'
        omega
    · intro hfree s hs
      rcases foldl_splitStep_chunkInv max_len text hm ⟨[], [], 0⟩ hfree
          ⟨rfl, by simpa using hm, (by intro x hx; cases hx), (by intro x hx; cases hx)⟩
        with ⟨-, -, hchunk, -⟩
      rw [hsplit, List.dropLast_concat] at hs
      exact hchunk s hs

/-- Claim C4: end-of-input handling of `split_narration`.  A non-empty trimmed
remainder shorter than 5 characters is merged into the last prior segment when
one exists, and otherwise (no prior segment, or length ≥ 5) becomes its own
final segment; an entire narration shorter than 5 characters with no possible
split is emitted as one standalone short segment. -/
theorem split_narration_trailing_fragment_rule (text : List Char) (max_len : Nat) :
    ((splitRun max_len text).segments ≠ [] →
      pyStrip (splitRun max_len text).current ≠ [] →
      (pyStrip (splitRun max_len text).current).length < 5 →
      split_narration text max_len
        = appendToLast (splitRun max_len text).segments
            (pyStrip (splitRun max_len text).current))
    ∧ (pyStrip (splitRun max_len text).current ≠ [] →
      ((splitRun max_len text).segments = [] ∨
        5 ≤ (pyStrip (splitRun max_len text).current).length) →
      split_narration text max_len
        = (splitRun max_len text).segments
            ++ [pyStrip (splitRun max_len text).current])
    ∧ (text.length < 5 → 5 ≤ max_len → (∃ c ∈ text, pyIsSpace c = false) →
      split_narration text max_len = [pyStrip text]) := by
  have hcur_ne : ∀ cur : List Char, pyStrip cur ≠ [] → cur ≠ [] := by
    intro cur h hc
    exact h (by rw [hc]; rfl)
  refine ⟨?_, ?_, ?_⟩
  · intro hseg hrem hlen
    rw [split_eq_finish]
    unfold splitFinish
    dsimp only
    rw [if_neg (hcur_ne _ hrem), if_neg hrem, if_pos ⟨hseg, hlen⟩]
  · intro hrem hcase
    rw [split_eq_finish]
    unfold splitFinish
    dsimp only
    rw [if_neg (hcur_ne _ hrem), if_neg hrem, if_neg ?_]
    rintro ⟨hs, hl⟩
    rcases hcase with h | h
    · exact hs h
    · omega
  · intro hshort hm hex
    have hrun : splitRun max_len text = ⟨[], text, text.length⟩ := by
      unfold splitRun
      have := foldl_splitStep_small max_len text ⟨[], [], 0⟩ rfl
        (by simpa using hshort) (by simp; omega)
      simpa using this
    have hrem : pyStrip text ≠ [] := by
      intro hnil
      have := pyStrip_eq_nil_iff.mp hnil
      exact dropSpaces_ne_nil_iff.mpr hex this
    rw [split_eq_finish, hrun]
    unfold splitFinish
    dsimp only
    rw [if_neg (hcur_ne _ hrem), if_neg hrem, if_neg ?_]
    · rfl
    · rintro ⟨hs, -⟩
      exact hs rfl

/-! ### Cue-level loop lemmas -/

lemma foldl_cueStep (dur : ℚ) (T : Nat) (segs : List (List Char)) :
    ∀ st : CueState,
    (segs.foldl (cueStep dur T) st).cues
        = st.cues ++ cueSeq dur T st.subtitle_index st.cum_time segs
    ∧ (segs.foldl (cueStep dur T) st).subtitle_index
        = st.subtitle_index + segs.length
    ∧ (segs.foldl (cueStep dur T) st).cum_time
        = st.cum_time + (segs.map (segDuration dur T)).sum := by
  induction segs with
  | nil =>
    intro st
    refine ⟨by simp [cueSeq], by simp, by simp⟩
  | cons s rest ih =>
    intro st
    rw [List.foldl_cons]
    rcases ih (cueStep dur T st s) with ⟨h1, h2, h3⟩
    refine ⟨?_, ?_, ?_⟩
    · rw [h1]
      simp [cueStep, cueSeq, List.append_assoc]
    · rw [h2]
      simp only [cueStep, List.length_cons]
      omega
    · rw [h3]
      simp only [cueStep, List.map_cons, List.sum_cons]
      ring

lemma cueSeq_length (dur : ℚ) (T : Nat) (segs : List (List Char)) :
    ∀ idx cum, (cueSeq dur T idx cum segs).length = segs.length := by
  induction segs with
  | nil => intro idx cum; rfl
  | cons s rest ih => intro idx cum; simp [cueSeq, ih]

lemma cueSeq_map_index (dur : ℚ) (T : Nat) (segs : List (List Char)) :
    ∀ idx cum, (cueSeq dur T idx cum segs).map Cue.index
      = List.range' idx segs.length := by
  induction segs with
  | nil => intro idx cum; rfl
  | cons s rest ih =>
    intro idx cum
    simp only [cueSeq, List.map_cons, List.length_cons, List.range']
    rw [ih]

lemma cueSeq_map_text (dur : ℚ) (T : Nat) (segs : List (List Char)) :
    ∀ idx cum, (cueSeq dur T idx cum segs).map Cue.text = segs := by
  induction segs with
  | nil => intro idx cum; rfl
  | cons s rest ih =>
    intro idx cum
    simp only [cueSeq, List.map_cons]
    rw [ih]

lemma cueSeq_chain_contig (dur : ℚ) (T : Nat) (segs : List (List Char)) :
    ∀ idx cum, List.Chain' (fun a b => a.endSeconds = b.startSeconds)
      (cueSeq dur T idx cum segs) := by
  induction segs with
  | nil => intro idx cum; exact List.chain'_nil
  | cons s rest ih =>
    intro idx cum
    cases rest with
    | nil => exact List.chain'_singleton _
    | cons s2 rest2 =>
      rw [cueSeq, cueSeq, List.chain'_cons]
      exact ⟨rfl, by rw [← cueSeq]; exact ih (idx + 1) _⟩

lemma segDuration_nonneg {dur : ℚ} (hd : 0 ≤ dur) (T : Nat) (seg : List Char) :
    0 ≤ segDuration dur T seg := by
  unfold segDuration
  apply mul_nonneg hd
  apply div_nonneg
  · exact_mod_cast Nat.zero_le _
  · exact_mod_cast Nat.zero_le _

lemma sum_segDuration_nonneg {dur : ℚ} (hd : 0 ≤ dur) (T : Nat)
    (segs : List (List Char)) : 0 ≤ (segs.map (segDuration dur T)).sum := by
  apply List.sum_nonneg
  intro x hx
  rcases List.mem_map.mp hx with ⟨s, -, rfl⟩
  exact segDuration_nonneg hd T s

lemma cueSeq_mem_bounds {dur : ℚ} (hd : 0 ≤ dur) (T : Nat)
    (segs : List (List Char)) : ∀ idx cum, ∀ c ∈ cueSeq dur T idx cum segs,
      cum ≤ c.startSeconds ∧ c.startSeconds ≤ c.endSeconds ∧
        c.endSeconds ≤ cum + (segs.map (segDuration dur T)).sum := by
  induction segs with
  | nil => intro idx cum c hc; cases hc
  | cons s rest ih =>
    intro idx cum c hc
    have hdseg := segDuration_nonneg hd T s
    have hdsum := sum_segDuration_nonneg hd T rest
    rcases List.mem_cons.mp hc with rfl | hc
    · refine ⟨le_refl _, by simpa using hdseg, ?_⟩
      simp only [List.map_cons, List.sum_cons]
      have : cum + segDuration dur T s ≤
          cum + (segDuration dur T s + (rest.map (segDuration dur T)).sum) := by
        have := add_le_add_left hdsum (cum + segDuration dur T s)
        simpa [add_assoc] using this
      simpa using this
    · rcases ih (idx + 1) (cum + segDuration dur T s) c hc with ⟨h1, h2, h3⟩
      refine ⟨le_trans (by simpa using hdseg) h1, h2, ?_⟩
      calc c.endSeconds
          ≤ cum + segDuration dur T s + (rest.map (segDuration dur T)).sum := h3
        _ = cum + ((s :: rest).map (segDuration dur T)).sum := by
            simp only [List.map_cons, List.sum_cons]
            ring

lemma cueSeq_chain_start {dur : ℚ} (hd : 0 ≤ dur) (T : Nat)
    (segs : List (List Char)) : ∀ idx cum,
      List.Chain' (fun a b => a.startSeconds ≤ b.startSeconds)
        (cueSeq dur T idx cum segs) := by
  induction segs with
  | nil => intro idx cum; exact List.chain'_nil
  | cons s rest ih =>
    intro idx cum
    cases rest with
    | nil => exact List.chain'_singleton _
    | cons s2 rest2 =>
      rw [cueSeq, cueSeq, List.chain'_cons]
      constructor
      · simpa using segDuration_nonneg hd T s
      · rw [← cueSeq]
        exact ih (idx + 1) _

lemma cueSeq_head_start (dur : ℚ) (T : Nat) (segs : List (List Char))
    (idx : Nat) (cum : ℚ) :
    ∀ c ∈ (cueSeq dur T idx cum segs).head?, c.startSeconds = cum := by
  cases segs with
  | nil => intro c hc; cases hc
  | cons s rest =>
    intro c hc
    simp only [cueSeq, List.head?_cons, Option.mem_def, Option.some.injEq] at hc
    rw [← hc]

lemma cueSeq_zero_duration (T : Nat) (segs : List (List Char)) :
    ∀ idx cum, ∀ c ∈ cueSeq 0 T idx cum segs,
      c.startSeconds = c.endSeconds := by
  induction segs with
  | nil => intro idx cum c hc; cases hc
  | cons s rest ih =>
    intro idx cum c hc
    rcases List.mem_cons.mp hc with rfl | hc
    · show cum = cum + segDuration 0 T s
      simp [segDuration]
    · exact ih (idx + 1) _ c hc

/-! ### Time conservation -/

lemma sum_map_segDuration (dur : ℚ) (T : Nat) (segs : List (List Char)) :
    (segs.map (segDuration dur T)).sum
      = dur * (((segs.map List.length).sum : ℚ) / ((max T 1 : Nat) : ℚ)) := by
  induction segs with
  | nil => simp
  | cons s rest ih =>
    simp only [List.map_cons, List.sum_cons, ih, segDuration]
    push_cast
    ring

lemma sum_segDuration_eq (dur : ℚ) (segs : List (List Char))
    (hT : 1 ≤ (segs.map List.length).sum) :
    (segs.map (segDuration dur ((segs.map List.length).sum))).sum = dur := by
  rw [sum_map_segDuration, Nat.max_eq_left hT]
  have h0 : (((segs.map List.length).sum : Nat) : ℚ) ≠ 0 := by
    exact_mod_cast (by omega : (segs.map List.length).sum ≠ 0)
  rw [div_self h0, mul_one]

/-- A narration with a non-whitespace character yields segments totalling at
least one character. -/
lemma split_total_pos (text : List Char) (hnw : dropSpaces text ≠ []) :
    1 ≤ ((split_narration text 20).map List.length).sum := by
  have hrec := split_narration_reconstruction text 20
  have hflat : (split_narration text 20).flatten ≠ [] := by
    intro h
    rw [h] at hrec
    exact hnw hrec.symm
  have hlen := List.length_flatten (split_narration text 20)
  have hpos : 0 < (split_narration text 20).flatten.length :=
    List.length_pos.mpr hflat
  omega

lemma processSceneCues_cum (st : CueState) (scene : Scene) :
    (processSceneCues st scene).cum_time
      = st.cum_time + scene.durationSeconds := by
  unfold processSceneCues
  split_ifs with h
  · rfl
  · dsimp only
    rcases foldl_cueStep scene.durationSeconds _
        (split_narration scene.narration 20) st with ⟨-, -, h3⟩
    rw [h3, sum_segDuration_eq]
    apply split_total_pos
    intro hnil
    exact h (pyStrip_eq_nil_iff.mpr hnil)

lemma foldl_processSceneCues_cum (scenes : List Scene) : ∀ st : CueState,
    (scenes.foldl processSceneCues st).cum_time
      = st.cum_time + (scenes.map Scene.durationSeconds).sum := by
  induction scenes with
  | nil => intro st; simp
  | cons sc rest ih =>
    intro st
    rw [List.foldl_cons, ih, processSceneCues_cum]
    simp only [List.map_cons, List.sum_cons]
    ring

/-- Claim C1: within a scene whose narration has a non-whitespace character,
the per-segment durations `durationSeconds * len(seg) / max(totalChars, 1)`
sum exactly to the scene's `durationSeconds`; and the cumulative clock after
any scene list equals the sum of all scenes' durations, whether or not cues
were produced. -/
theorem generate_srt_time_conservation :
    (∀ (text : List Char) (dur : ℚ), (∃ c ∈ text, pyIsSpace c = false) →
      ((split_narration text 20).map
          (segDuration dur ((split_narration text 20).map List.length).sum)).sum
        = dur)
    ∧ ∀ scenes : List Scene,
        finalClock scenes = (scenes.map Scene.durationSeconds).sum := by
  constructor
  · intro text dur hex
    exact sum_segDuration_eq dur _ (split_total_pos text (dropSpaces_ne_nil_iff.mpr hex))
  · intro scenes
    unfold finalClock
    rw [foldl_processSceneCues_cum]
    simp

/-! ### Cue ordering invariants -/

lemma processSceneCues_indexInv {st : CueState} {scene : Scene}
    (h : IndexInv st) : IndexInv (processSceneCues st scene) := by
  unfold processSceneCues
  split_ifs with hws
  · exact h
  · dsimp only
    rcases foldl_cueStep scene.durationSeconds
        ((split_narration scene.narration 20).map List.length).sum
        (split_narration scene.narration 20) st with ⟨h1, h2, -⟩
    constructor
    · rw [h2, h1, List.length_append, cueSeq_length, h.1]
      omega
    · rw [h1, List.map_append, h.2, cueSeq_map_index, h.1, List.range'_append_1,
        List.length_append, cueSeq_length]
      rw [Nat.add_comm]

lemma foldl_processSceneCues_indexInv (scenes : List Scene) : ∀ st : CueState,
    IndexInv st → IndexInv (scenes.foldl processSceneCues st) := by
  induction scenes with
  | nil => intro st h; exact h
  | cons sc rest ih =>
    intro st h
    rw [List.foldl_cons]
    exact ih _ (processSceneCues_indexInv h)

lemma processSceneCues_monoInv {st : CueState} {scene : Scene}
    (hd : 0 ≤ scene.durationSeconds) (h : MonoInv st) :
    MonoInv (processSceneCues st scene) := by
  unfold processSceneCues
  split_ifs with hws
  · refine ⟨h.1, fun c hc => ?_⟩
    refine ⟨le_trans (h.2 c hc).1 ?_, (h.2 c hc).2⟩
    exact le_add_of_nonneg_right hd
  · dsimp only
    rcases foldl_cueStep scene.durationSeconds
        ((split_narration scene.narration 20).map List.length).sum
        (split_narration scene.narration 20) st with ⟨h1, -, h3⟩
    have hsum := sum_segDuration_nonneg hd
      ((split_narration scene.narration 20).map List.length).sum
      (split_narration scene.narration 20)
    constructor
    · rw [h1]
      refine List.Chain'.append h.1 (cueSeq_chain_start hd _ _ _ _) ?_
      intro x hx y hy
      rcases List.mem_getLast?_eq_getLast hx with ⟨hne, rfl⟩
      have hy' := cueSeq_head_start scene.durationSeconds _ _ _ _ y hy
      rw [hy']
      exact (h.2 _ (List.getLast_mem hne)).1
    · intro c hc
      rw [h3]
      rw [h1] at hc
      rcases List.mem_append.mp hc with hold | hnew
      · exact ⟨le_trans (h.2 c hold).1 (le_add_of_nonneg_right hsum),
          (h.2 c hold).2⟩
      · rcases cueSeq_mem_bounds hd _ _ _ _ c hnew with ⟨hb1, hb2, hb3⟩
        exact ⟨le_trans hb2 hb3, hb2⟩

lemma foldl_processSceneCues_monoInv (scenes : List Scene) : ∀ st : CueState,
    (∀ s ∈ scenes, 0 ≤ s.durationSeconds) →
    MonoInv st → MonoInv (scenes.foldl processSceneCues st) := by
  induction scenes with
  | nil => intro st _ h; exact h
  | cons sc rest ih =>
    intro st hall h
    rw [List.foldl_cons]
    refine ih _ (fun s hs => hall s (List.mem_cons_of_mem sc hs)) ?_
    exact processSceneCues_monoInv (hall sc (List.mem_cons_self sc rest)) h

/-- Claim C7: cue indices are exactly `1, 2, 3, ...` in emission order; within
one scene each cue ends exactly where the next starts; with non-negative
durations start times never decrease across the whole output; a whitespace-only
scene advances the clock by its full duration while adding no cues. -/
theorem generate_srt_cue_ordering :
    (∀ scenes : List Scene,
      (generateCues scenes).map Cue.index
        = List.range' 1 (generateCues scenes).length)
    ∧ (∀ (st : CueState) (scene : Scene),
        List.Chain' (fun a b => a.endSeconds = b.startSeconds)
          ((processSceneCues st scene).cues.drop st.cues.length))
    ∧ (∀ scenes : List Scene, (∀ s ∈ scenes, 0 ≤ s.durationSeconds) →
        List.Chain' (fun a b => a.startSeconds ≤ b.startSeconds)
          (generateCues scenes))
    ∧ (∀ (st : CueState) (scene : Scene), pyStrip scene.narration = [] →
        processSceneCues st scene
          = { st with cum_time := st.cum_time + scene.durationSeconds }) := by
  refine ⟨?_, ?_, ?_, ?_⟩
  · intro scenes
    exact (foldl_processSceneCues_indexInv scenes ⟨[], 1, 0⟩
      ⟨rfl, rfl⟩).2
  · intro st scene
    unfold processSceneCues
    split_ifs with hws
    · rw [List.drop_length]
      exact List.chain'_nil
    · dsimp only
      rcases foldl_cueStep scene.durationSeconds
          ((split_narration scene.narration 20).map List.length).sum
          (split_narration scene.narration 20) st with ⟨h1, -, -⟩
      rw [h1, List.drop_left]
      exact cueSeq_chain_contig _ _ _ _ _
  · intro scenes hall
    exact (foldl_processSceneCues_monoInv scenes ⟨[], 1, 0⟩ hall
      ⟨List.chain'_nil, fun c hc => absurd hc (List.not_mem_nil c)⟩).1
  · intro st scene hws
    unfold processSceneCues
    rw [if_pos hws]

/-- Claim C6 (amended): with non-negative durations no cue ever has
`end < start`; a scene with `durationSeconds = 0` yields zero-duration cues
(`start = end`); and a scene with non-blank narration is never rejected — it
always yields one cue per segment, whatever its duration. -/
theorem generate_srt_duration_edge_cases :
    (∀ scenes : List Scene, (∀ s ∈ scenes, 0 ≤ s.durationSeconds) →
      ∀ c ∈ generateCues scenes, c.startSeconds ≤ c.endSeconds)
    ∧ (∀ (st : CueState) (scene : Scene), scene.durationSeconds = 0 →
      ∀ c ∈ (processSceneCues st scene).cues.drop st.cues.length,
        c.startSeconds = c.endSeconds)
    ∧ (∀ (st : CueState) (scene : Scene), pyStrip scene.narration ≠ [] →
      ((processSceneCues st scene).cues.drop st.cues.length).length
          = (split_narration scene.narration 20).length
      ∧ 1 ≤ ((processSceneCues st scene).cues.drop st.cues.length).length) := by
  refine ⟨?_, ?_, ?_⟩
  · intro scenes hall c hc
    exact ((foldl_processSceneCues_monoInv scenes ⟨[], 1, 0⟩ hall
      ⟨List.chain'_nil, fun c hc => absurd hc (List.not_mem_nil c)⟩).2 c hc).2
  · intro st scene hzero c hc
    unfold processSceneCues at hc
    split_ifs at hc with hws
    · rw [List.drop_length] at hc
      cases hc
    · dsimp only at hc
      rcases foldl_cueStep scene.durationSeconds
          ((split_narration scene.narration 20).map List.length).sum
          (split_narration scene.narration 20) st with ⟨h1, -, -⟩
      rw [h1, List.drop_left] at hc
      rw [hzero] at hc
      exact cueSeq_zero_duration _ _ _ _ c hc
  · intro st scene hnb
    unfold processSceneCues
    split_ifs with hws
    · exact absurd hws hnb
    · dsimp only
      rcases foldl_cueStep scene.durationSeconds
          ((split_narration scene.narration 20).map List.length).sum
          (split_narration scene.narration 20) st with ⟨h1, -, -⟩
      rw [h1, List.drop_left, cueSeq_length]
      have htot := split_total_pos scene.narration (by
        intro hnil
        exact hnb (pyStrip_eq_nil_iff.mpr hnil))
      have : split_narration scene.narration 20 ≠ [] := by
        intro h
        rw [h] at htot
        simp at htot
      exact ⟨rfl, by
        have := List.length_pos.mpr this
        omega⟩

/-! ### Timestamp formatting -/

lemma ratFloor_eq (q : ℚ) : ratFloor q = ⌊q⌋ := Rat.floor_def.symm

lemma ratFloor_eq_of (q : ℚ) (n : ℤ) (h1 : (n:ℚ) ≤ q) (h2 : q < n + 1) :
    ratFloor q = n := by
  rw [ratFloor_eq]
  exact Int.floor_eq_iff.mpr ⟨h1, by exact_mod_cast h2⟩

lemma pyMod_eval (a b r : ℚ) (n : ℤ) (hfl : ratFloor (a / b) = n)
    (h : a - b * (n:ℚ) = r) : pyMod a b = r := by
  unfold pyMod
  rw [hfl, h]

lemma format_srt_time_eval (s : ℚ) (hh mi se ms : ℤ)
    (h1 : ratFloor (s / 3600) = hh)
    (h2 : ratFloor (pyMod s 3600 / 60) = mi)
    (h3 : ratFloor (pyMod s 60) = se)
    (h4 : ratFloor (pyMod s 1 * 1000) = ms) :
    format_srt_time s
      = zpad 2 hh ++ ":" ++ zpad 2 mi ++ ":" ++ zpad 2 se ++ "," ++ zpad 3 ms := by
  unfold format_srt_time
  rw [h1, h2, h3, h4]

lemma pyMod_nonneg (a : ℚ) {b : ℚ} (hb : 0 < b) : 0 ≤ pyMod a b := by
  unfold pyMod
  rw [ratFloor_eq]
  have h1 : ((⌊a / b⌋ : ℤ) : ℚ) ≤ a / b := Int.floor_le _
  have h2 := mul_le_mul_of_nonneg_left h1 (le_of_lt hb)
  have h3 : b * (a / b) = a := by
    field_simp
  linarith

lemma pyMod_lt (a : ℚ) {b : ℚ} (hb : 0 < b) : pyMod a b < b := by
  unfold pyMod
  rw [ratFloor_eq]
  have h1 : a / b < (⌊a / b⌋ : ℚ) + 1 := Int.lt_floor_add_one _
  have h2 := mul_lt_mul_of_pos_left h1 hb
  have h3 : b * (a / b) = a := by
    field_simp
  rw [mul_add, mul_one] at h2
  linarith

/-- Claim C8: `format_srt_time` renders `HH:MM:SS,mmm` from the floor-based
components; the stated sample values hold exactly, hours are not bounded, and
the minute/second/millisecond fields never overflow their ranges. -/
theorem format_srt_time_spec :
    format_srt_time 0 = "00:00:00,000"
    ∧ format_srt_time (7323/2) = "01:01:01,500"
    ∧ format_srt_time (59999/1000) = "00:00:59,999"
    ∧ format_srt_time 360000 = "100:00:00,000"
    ∧ (∀ seconds : ℚ,
        0 ≤ ratFloor (pyMod seconds 3600 / 60)
        ∧ ratFloor (pyMod seconds 3600 / 60) < 60
        ∧ 0 ≤ ratFloor (pyMod seconds 60)
        ∧ ratFloor (pyMod seconds 60) < 60
        ∧ 0 ≤ ratFloor (pyMod seconds 1 * 1000)
        ∧ ratFloor (pyMod seconds 1 * 1000) < 1000) := by
  refine ⟨?_, ?_, ?_, ?_, ?_⟩
  · rw [format_srt_time_eval _ 0 0 0 0
      (ratFloor_eq_of _ 0 (by norm_num) (by norm_num))
      (by rw [pyMod_eval 0 3600 0 0
          (ratFloor_eq_of _ 0 (by norm_num) (by norm_num)) (by norm_num)]
          exact ratFloor_eq_of _ 0 (by norm_num) (by norm_num))
      (by rw [pyMod_eval 0 60 0 0
          (ratFloor_eq_of _ 0 (by norm_num) (by norm_num)) (by norm_num)]
          exact ratFloor_eq_of _ 0 (by norm_num) (by norm_num))
      (by rw [pyMod_eval 0 1 0 0
          (ratFloor_eq_of _ 0 (by norm_num) (by norm_num)) (by norm_num)]
          exact ratFloor_eq_of _ 0 (by norm_num) (by norm_num))]
    decide
  · rw [format_srt_time_eval _ 1 1 1 500
      (ratFloor_eq_of _ 1 (by norm_num) (by norm_num))
      (by rw [pyMod_eval (7323/2) 3600 (123/2) 1
          (ratFloor_eq_of _ 1 (by norm_num) (by norm_num)) (by norm_num)]
          exact ratFloor_eq_of _ 1 (by norm_num) (by norm_num))
      (by rw [pyMod_eval (7323/2) 60 (3/2) 61
          (ratFloor_eq_of _ 61 (by norm_num) (by norm_num)) (by norm_num)]
          exact ratFloor_eq_of _ 1 (by norm_num) (by norm_num))
      (by rw [pyMod_eval (7323/2) 1 (1/2) 3661
          (ratFloor_eq_of _ 3661 (by norm_num) (by norm_num)) (by norm_num)]
          exact ratFloor_eq_of _ 500 (by norm_num) (by norm_num))]
    decide
  · rw [format_srt_time_eval _ 0 0 59 999
      (ratFloor_eq_of _ 0 (by norm_num) (by norm_num))
      (by rw [pyMod_eval (59999/1000) 3600 (59999/1000) 0
          (ratFloor_eq_of _ 0 (by norm_num) (by norm_num)) (by norm_num)]
          exact ratFloor_eq_of _ 0 (by norm_num) (by norm_num))
      (by rw [pyMod_eval (59999/1000) 60 (59999/1000) 0
          (ratFloor_eq_of _ 0 (by norm_num) (by norm_num)) (by norm_num)]
          exact ratFloor_eq_of _ 59 (by norm_num) (by norm_num))
      (by rw [pyMod_eval (59999/1000) 1 (999/1000) 59
          (ratFloor_eq_of _ 59 (by norm_num) (by norm_num)) (by norm_num)]
          exact ratFloor_eq_of _ 999 (by norm_num) (by norm_num))]
    decide
  · rw [format_srt_time_eval _ 100 0 0 0
      (ratFloor_eq_of _ 100 (by norm_num) (by norm_num))
      (by rw [pyMod_eval 360000 3600 0 100
          (ratFloor_eq_of _ 100 (by norm_num) (by norm_num)) (by norm_num)]
          exact ratFloor_eq_of _ 0 (by norm_num) (by norm_num))
      (by rw [pyMod_eval 360000 60 0 6000
          (ratFloor_eq_of _ 6000 (by norm_num) (by norm_num)) (by norm_num)]
          exact ratFloor_eq_of _ 0 (by norm_num) (by norm_num))
      (by rw [pyMod_eval 360000 1 0 360000
          (ratFloor_eq_of _ 360000 (by norm_num) (by norm_num)) (by norm_num)]
          exact ratFloor_eq_of _ 0 (by norm_num) (by norm_num))]
    decide
  · intro seconds
    have hm3600 := pyMod_nonneg seconds (by norm_num : (0:ℚ) < 3600)
    have hm3600' := pyMod_lt seconds (by norm_num : (0:ℚ) < 3600)
    have hm60 := pyMod_nonneg seconds (by norm_num : (0:ℚ) < 60)
    have hm60' := pyMod_lt seconds (by norm_num : (0:ℚ) < 60)
    have hm1 := pyMod_nonneg seconds (by norm_num : (0:ℚ) < 1)
    have hm1' := pyMod_lt seconds (by norm_num : (0:ℚ) < 1)
    refine ⟨?_, ?_, ?_, ?_, ?_, ?_⟩
    · rw [ratFloor_eq]
      exact Int.floor_nonneg.mpr (div_nonneg hm3600 (by norm_num))
    · rw [ratFloor_eq]
      apply Int.floor_lt.mpr
      push_cast
      rw [div_lt_iff₀ (by norm_num : (0:ℚ) < 60)]
      linarith
    · rw [ratFloor_eq]
      exact Int.floor_nonneg.mpr hm60
    · rw [ratFloor_eq]
      apply Int.floor_lt.mpr
      push_cast
      linarith
    · rw [ratFloor_eq]
      exact Int.floor_nonneg.mpr (mul_nonneg hm1 (by norm_num))
    · rw [ratFloor_eq]
      apply Int.floor_lt.mpr
      push_cast
      nlinarith

/-! ### Concrete scenarios -/

lemma generateCues_single (narr : List Char) (dur : ℚ)
    (hns : pyStrip narr ≠ []) :
    generateCues [⟨narr, dur⟩]
      = cueSeq dur ((split_narration narr 20).map List.length).sum 1 0
          (split_narration narr 20) := by
  unfold generateCues
  rw [List.foldl_cons, List.foldl_nil]
  unfold processSceneCues
  rw [if_neg hns]
  dsimp only
  rcases foldl_cueStep dur ((split_narration narr 20).map List.length).sum
      (split_narration narr 20) ⟨[], 1, 0⟩ with ⟨h1, -, -⟩
  simpa using h1

/-- Claim C3: on the scenario narration, the comma after two characters does
not close a segment (the buffer is below the 5-character floor); the splits
happen at `！` and the final `。`; one cue is emitted per segment, with
durations proportional to segment lengths (6/13 and 7/13 of 10 seconds)
summing to exactly 10. -/
theorem scenario_chinese_narration :
    split_narration "你好，世界！今天天气很好。".data 20
        = ["你好，世界！".data, "今天天气很好。".data]
    ∧ '，' ∈ "你好，世界！".data
    ∧ generateCues [⟨"你好，世界！今天天气很好。".data, 10⟩]
        = [⟨1, 0, 60/13, "你好，世界！".data⟩,
           ⟨2, 60/13, 10, "今天天气很好。".data⟩]
    ∧ (60/13 : ℚ) - 0 = 10 * (6/13)
    ∧ (10 : ℚ) - 60/13 = 10 * (7/13)
    ∧ ((60/13 : ℚ) - 0) + (10 - 60/13) = 10 := by
  refine ⟨by decide, by decide, ?_, by norm_num, by norm_num, by norm_num⟩
  rw [generateCues_single _ _ (by decide),
    (by decide : split_narration "你好，世界！今天天气很好。".data 20
      = ["你好，世界！".data, "今天天气很好。".data])]
  simp only [cueSeq, segDuration, List.map_cons, List.map_nil, List.sum_cons,
    List.sum_nil, (by decide : ("你好，世界！".data).length = 6),
    (by decide : ("今天天气很好。".data).length = 7)]
  norm_num

/-- Claim C6, counterexample: a scene with `durationSeconds = -1 ≤ 0` is
processed and yields a cue whose end is strictly before its start — not a
zero-duration cue, contradicting the claim that every cue of a
`durationSeconds ≤ 0` scene has `start == end`. -/
theorem negative_duration_counterexample :
    ((-1 : ℚ) ≤ 0)
    ∧ generateCues [⟨"Hello".data, -1⟩] = [⟨1, 0, -1, "Hello".data⟩]
    ∧ ¬ ((0 : ℚ) = -1) := by
  refine ⟨by norm_num, ?_, by norm_num⟩
  rw [generateCues_single _ _ (by decide),
    (by decide : split_narration "Hello".data 20 = ["Hello".data])]
  simp only [cueSeq, segDuration, List.map_cons, List.map_nil, List.sum_cons,
    List.sum_nil, (by decide : ("Hello".data).length = 5)]
  norm_num

/-- Claim C10: when a short trailing fragment is merged, the trimmed fragment
is concatenated directly onto the previous segment, dropping the whitespace
that separated them in the narration. -/
theorem merge_drops_separating_whitespace :
    split_narration "Hello you. Hi".data 20 = ["Hello you.Hi".data]
    ∧ split_narration "Hello you. Hi".data 20 ≠ ["Hello you. Hi".data] := by
  exact ⟨by decide, by decide⟩

/-! ### Serialization -/

lemma splitFinish_flatten_subset (segs : List (List Char)) (cur : List Char) :
    (splitFinish segs cur).flatten ⊆ segs.flatten ++ cur := by
  rcases splitFinish_cases segs cur with ⟨-, heq⟩ | ⟨hne, -, -, heq⟩ | ⟨-, -, heq⟩
  · rw [heq]
    exact fun x hx => List.mem_append.mpr (Or.inl hx)
  · rw [heq, flatten_appendToLast hne]
    intro x hx
    rcases List.mem_append.mp hx with h | h
    · exact List.mem_append.mpr (Or.inl h)
    · exact List.mem_append.mpr (Or.inr (pyStrip_subset _ h))
  · rw [heq, List.flatten_append]
    intro x hx
    simp only [List.flatten_cons, List.flatten_nil, List.append_nil] at hx
    rcases List.mem_append.mp hx with h | h
    · exact List.mem_append.mpr (Or.inl h)
    · exact List.mem_append.mpr (Or.inr (pyStrip_subset _ h))

/-- Every emitted segment is non-blank and draws its characters from the
input text. -/
lemma split_narration_mem_props (text : List Char) (m : Nat) :
    ∀ s ∈ split_narration text m, pyStrip s ≠ [] ∧ ∀ c ∈ s, c ∈ text := by
  intro s hs
  unfold split_narration at hs
  dsimp only at hs
  constructor
  · have := List.of_mem_filter hs
    simp only [Bool.not_eq_true', Bool.not_eq_false, List.isEmpty_eq_false] at this
    exact this
  · intro c hc
    have hs' := List.mem_of_mem_filter hs
    have h1 : c ∈ (splitFinish (splitRun m text).segments
        (splitRun m text).current).flatten := List.mem_flatten_of_mem hs' hc
    have h2 := splitFinish_flatten_subset _ _ h1
    have h3 := foldl_splitStep_subset m text ⟨[], [], 0⟩
    have h4 : c ∈ (splitRun m text).segments.flatten
        ++ (splitRun m text).current := by
      unfold splitRun
      simpa using h2
    have := h3 h4
    simpa using this

lemma lineStep_rel {dur : ℚ} {T : Nat} {g : GenState} {c : CueState}
    (h : LinesRel g c) (seg : List Char) :
    LinesRel (lineStep dur T g seg) (cueStep dur T c seg) := by
  rcases h with ⟨h1, h2, h3⟩
  unfold lineStep cueStep segDuration
  dsimp only
  refine ⟨?_, by simp [h2], by simp [h3]⟩
  rw [List.flatMap_append, h1, h2, h3]
  simp [cueLines]

lemma foldl_lineStep_rel (dur : ℚ) (T : Nat) (segs : List (List Char)) :
    ∀ (g : GenState) (c : CueState), LinesRel g c →
    LinesRel (segs.foldl (lineStep dur T) g) (segs.foldl (cueStep dur T) c) := by
  induction segs with
  | nil => intro g c h; exact h
  | cons s rest ih =>
    intro g c h
    rw [List.foldl_cons, List.foldl_cons]
    exact ih _ _ (lineStep_rel h s)

lemma processScene_rel {g : GenState} {c : CueState} (scene : Scene)
    (h : LinesRel g c) : LinesRel (processScene g scene) (processSceneCues c scene) := by
  unfold processScene processSceneCues
  split_ifs with hws
  · exact ⟨h.1, h.2.1, by dsimp only; rw [h.2.2]⟩
  · dsimp only
    exact foldl_lineStep_rel _ _ _ _ _ h

lemma foldl_processScene_rel (scenes : List Scene) :
    ∀ (g : GenState) (c : CueState), LinesRel g c →
    LinesRel (scenes.foldl processScene g) (scenes.foldl processSceneCues c) := by
  induction scenes with
  | nil => intro g c h; exact h
  | cons sc rest ih =>
    intro g c h
    rw [List.foldl_cons, List.foldl_cons]
    exact ih _ _ (processScene_rel sc h)

lemma srtLines_eq_flatMap (scenes : List Scene) :
    srtLines scenes = (generateCues scenes).flatMap cueLines :=
  (foldl_processScene_rel scenes ⟨[], 1, 0⟩ ⟨[], 1, 0⟩ ⟨rfl, rfl, rfl⟩).1

lemma processSceneCues_text_cases {st : CueState} {scene : Scene} :
    ∀ c ∈ (processSceneCues st scene).cues,
      c ∈ st.cues ∨ c.text ∈ split_narration scene.narration 20 := by
  intro c hc
  unfold processSceneCues at hc
  split_ifs at hc with hws
  · exact Or.inl hc
  · dsimp only at hc
    rcases foldl_cueStep scene.durationSeconds
        ((split_narration scene.narration 20).map List.length).sum
        (split_narration scene.narration 20) st with ⟨h1, -, -⟩
    rw [h1] at hc
    rcases List.mem_append.mp hc with h | h
    · exact Or.inl h
    · right
      have := List.mem_map_of_mem Cue.text h
      rw [cueSeq_map_text] at this
      exact this

lemma foldl_cues_textProp (Q : List Char → Prop) (scenes : List Scene) :
    ∀ st : CueState,
    (∀ c ∈ st.cues, Q c.text) →
    (∀ scene ∈ scenes, ∀ s ∈ split_narration scene.narration 20, Q s) →
    ∀ c ∈ (scenes.foldl processSceneCues st).cues, Q c.text := by
  induction scenes with
  | nil => intro st h _ c hc; exact h c hc
  | cons sc rest ih =>
    intro st h hall c hc
    rw [List.foldl_cons] at hc
    refine ih _ ?_ (fun s hs => hall s (List.mem_cons_of_mem _ hs)) c hc
    intro c' hc'
    rcases processSceneCues_text_cases c' hc' with h' | h'
    · exact h c' h'
    · exact hall sc (List.mem_cons_self _ _) _ h'

lemma flatMap_cueLines_getLast {cues : List Cue} (h : cues ≠ []) :
    (cues.flatMap cueLines).getLast? = some "" := by
  rcases List.eq_nil_or_concat cues with rfl | ⟨L, b, rfl⟩
  · exact absurd rfl h
  · rw [List.concat_eq_append, List.flatMap_append, List.getLast?_append]
    simp [cueLines]

/-- Claim C9 (amended): the `lines` list joined by `generate_srt` is, per cue
in index order, an index line, a `start --> end` line, one element holding the
segment text, and a blank separator; every cue text is non-empty, and — when no
narration embeds a newline — contains no newline, so it really is a single
output line; with at least one cue the final element is the blank separator,
giving the single trailing blank line. -/
theorem generate_srt_serialization :
    (∀ scenes : List Scene,
        srtLines scenes = (generateCues scenes).flatMap cueLines)
    ∧ (∀ scenes : List Scene,
        generate_srt scenes
          = String.intercalate "\n" ((generateCues scenes).flatMap cueLines))
    ∧ (∀ scenes : List Scene, ∀ c ∈ generateCues scenes, c.text ≠ [])
    ∧ (∀ scenes : List Scene, (∀ s ∈ scenes, '\n' ∉ s.narration) →
        ∀ c ∈ generateCues scenes, '\n' ∉ c.text)
    ∧ (∀ scenes : List Scene, generateCues scenes ≠ [] →
        (srtLines scenes).getLast? = some "") := by
  refine ⟨srtLines_eq_flatMap, ?_, ?_, ?_, ?_⟩
  · intro scenes
    show String.intercalate "\n" (srtLines scenes) = _
    rw [srtLines_eq_flatMap]
  · intro scenes c hc
    refine foldl_cues_textProp (fun s => s ≠ []) scenes ⟨[], 1, 0⟩
      (by intro x hx; cases hx) (fun scene _ s hs => ?_) c hc
    have := (split_narration_mem_props _ _ s hs).1
    intro hnil
    rw [hnil] at this
    exact this rfl
  · intro scenes hnn c hc
    refine foldl_cues_textProp (fun s => '\n' ∉ s) scenes ⟨[], 1, 0⟩
      (by intro x hx; cases hx) (fun scene hsc s hs hin => ?_) c hc
    exact hnn scene hsc ((split_narration_mem_props _ _ s hs).2 '\n' hin)
  · intro scenes hne
    rw [srtLines_eq_flatMap scenes]
    exact flatMap_cueLines_getLast hne

lemma format_srt_time_one : format_srt_time 1 = "00:00:01,000" := by
  rw [format_srt_time_eval _ 0 0 1 0
    (ratFloor_eq_of _ 0 (by norm_num) (by norm_num))
    (by rw [pyMod_eval 1 3600 1 0
        (ratFloor_eq_of _ 0 (by norm_num) (by norm_num)) (by norm_num)]
        exact ratFloor_eq_of _ 0 (by norm_num) (by norm_num))
    (by rw [pyMod_eval 1 60 1 0
        (ratFloor_eq_of _ 0 (by norm_num) (by norm_num)) (by norm_num)]
        exact ratFloor_eq_of _ 1 (by norm_num) (by norm_num))
    (by rw [pyMod_eval 1 1 0 1
        (ratFloor_eq_of _ 1 (by norm_num) (by norm_num)) (by norm_num)]
        exact ratFloor_eq_of _ 0 (by norm_num) (by norm_num))]
  decide

lemma format_srt_time_zero : format_srt_time 0 = "00:00:00,000" := by
  rw [format_srt_time_eval _ 0 0 0 0
    (ratFloor_eq_of _ 0 (by norm_num) (by norm_num))
    (by rw [pyMod_eval 0 3600 0 0
        (ratFloor_eq_of _ 0 (by norm_num) (by norm_num)) (by norm_num)]
        exact ratFloor_eq_of _ 0 (by norm_num) (by norm_num))
    (by rw [pyMod_eval 0 60 0 0
        (ratFloor_eq_of _ 0 (by norm_num) (by norm_num)) (by norm_num)]
        exact ratFloor_eq_of _ 0 (by norm_num) (by norm_num))
    (by rw [pyMod_eval 0 1 0 0
        (ratFloor_eq_of _ 0 (by norm_num) (by norm_num)) (by norm_num)]
        exact ratFloor_eq_of _ 0 (by norm_num) (by norm_num))]
  decide

/-- Claim C9, counterexample: a narration with an embedded newline produces a
cue whose text contains `'\n'`; the rendered output then has 4 newline
characters for a single cue, where the claimed four-line block shape implies
`4 * cues - 1 = 3` — the segment text does not occupy exactly one line. -/
theorem embedded_newline_counterexample :
    generateCues [⟨"abc\ndefgh.".data, 1⟩] = [⟨1, 0, 1, "abc\ndefgh.".data⟩]
    ∧ '\n' ∈ "abc\ndefgh.".data
    ∧ srtLines [⟨"abc\ndefgh.".data, 1⟩]
        = ["1", "00:00:00,000 --> 00:00:01,000", "abc\ndefgh.", ""]
    ∧ (generate_srt [⟨"abc\ndefgh.".data, 1⟩]).data.count '\n' = 4
    ∧ ¬ ((generate_srt [⟨"abc\ndefgh.".data, 1⟩]).data.count '\n'
          = 4 * (generateCues [⟨"abc\ndefgh.".data, 1⟩]).length - 1) := by
  have hcue : generateCues [⟨"abc\ndefgh.".data, 1⟩]
      = [⟨1, 0, 1, "abc\ndefgh.".data⟩] := by
    rw [generateCues_single _ _ (by decide),
      (by decide : split_narration "abc\ndefgh.".data 20 = ["abc\ndefgh.".data])]
    simp only [cueSeq, segDuration, List.map_cons, List.map_nil, List.sum_cons,
      List.sum_nil, (by decide : ("abc\ndefgh.".data).length = 10)]
    norm_num
  have hlines : srtLines [⟨"abc\ndefgh.".data, 1⟩]
      = ["1", "00:00:00,000 --> 00:00:01,000", "abc\ndefgh.", ""] := by
    rw [srtLines_eq_flatMap, hcue]
    simp only [cueLines, format_srt_time_zero, format_srt_time_one,
      List.flatMap_cons, List.flatMap_nil, List.append_nil]
    decide
  have hsrt : generate_srt [⟨"abc\ndefgh.".data, 1⟩]
      = String.intercalate "\n" (srtLines [⟨"abc\ndefgh.".data, 1⟩]) := rfl
  have hcount : (generate_srt [⟨"abc\ndefgh.".data, 1⟩]).data.count '\n' = 4 := by
    rw [hsrt, hlines]
    decide
  refine ⟨hcue, by decide, hlines, hcount, ?_⟩
  rw [hcount, hcue]
  decide

/-! ### Witnesses -/

/-- Witness for claim C1 at narration `"Hi."`, duration 2, and a two-scene
list with a whitespace-only first scene. -/
theorem generate_srt_time_conservation_witness :
    ((split_narration "Hi.".data 20).map
        (segDuration 2 ((split_narration "Hi.".data 20).map List.length).sum)).sum
      = 2
    ∧ finalClock [⟨"  ".data, 3⟩, ⟨"Hi.".data, 2⟩] = 5 := by
  constructor
  · exact generate_srt_time_conservation.1 "Hi.".data 2 (by decide)
  · rw [generate_srt_time_conservation.2 [⟨"  ".data, 3⟩, ⟨"Hi.".data, 2⟩]]
    norm_num

/-- Witness for claim C2 at text `"abcdefghij"`, `maxLen = 5`. -/
theorem split_narration_length_bound_witness :
    (1 ≤ 5)
    ∧ "abcde".data ∈ (split_narration "abcdefghij".data 5).dropLast
    ∧ ("abcde".data).length ≤ 5
    ∧ ("abcde".data).length = 5 := by
  have h := split_narration_length_bound "abcdefghij".data 5 (by norm_num)
  exact ⟨by norm_num, by decide, h.1 _ (by decide), h.2.2 (by decide) _ (by decide)⟩

/-- Witness for claim C4: the merge case at `"Hello you. Hi"` and the
standalone short-narration case at `"Hi"`. -/
theorem split_narration_trailing_fragment_rule_witness :
    split_narration "Hello you. Hi".data 20
        = appendToLast (splitRun 20 "Hello you. Hi".data).segments
            (pyStrip (splitRun 20 "Hello you. Hi".data).current)
    ∧ split_narration "Hello".data 20
        = (splitRun 20 "Hello".data).segments
            ++ [pyStrip (splitRun 20 "Hello".data).current]
    ∧ split_narration "Hi".data 20 = [pyStrip "Hi".data] := by
  refine ⟨?_, ?_, ?_⟩
  · exact (split_narration_trailing_fragment_rule "Hello you. Hi".data 20).1
      (by decide) (by decide) (by decide)
  · exact (split_narration_trailing_fragment_rule "Hello".data 20).2.1
      (by decide) (Or.inl (by decide))
  · exact (split_narration_trailing_fragment_rule "Hi".data 20).2.2
      (by decide) (by norm_num) (by decide)

lemma generateCues_hi_two : generateCues [⟨"Hi.".data, 2⟩]
    = [⟨1, 0, 2, "Hi.".data⟩] := by
  rw [generateCues_single _ _ (by decide),
    (by decide : split_narration "Hi.".data 20 = ["Hi.".data])]
  simp only [cueSeq, segDuration, List.map_cons, List.map_nil, List.sum_cons,
    List.sum_nil, (by decide : ("Hi.".data).length = 3)]
  norm_num

/-- Witness for claim C6 (amended) at the scene `⟨"Hi.", 2⟩` (and duration 0
for the zero-duration part). -/
theorem generate_srt_duration_edge_cases_witness :
    ((⟨1, 0, 2, "Hi.".data⟩ : Cue).startSeconds
        ≤ (⟨1, 0, 2, "Hi.".data⟩ : Cue).endSeconds)
    ∧ ((⟨1, 0, 0, "Hi.".data⟩ : Cue).startSeconds
        = (⟨1, 0, 0, "Hi.".data⟩ : Cue).endSeconds)
    ∧ ((processSceneCues ⟨[], 1, 0⟩ ⟨"Hi.".data, 2⟩).cues.drop
          ((⟨[], 1, 0⟩ : CueState).cues.length)).length
        = (split_narration "Hi.".data 20).length
    ∧ 1 ≤ ((processSceneCues ⟨[], 1, 0⟩ ⟨"Hi.".data, 2⟩).cues.drop
          ((⟨[], 1, 0⟩ : CueState).cues.length)).length := by
  refine ⟨?_, ?_, ?_, ?_⟩
  · refine generate_srt_duration_edge_cases.1 [⟨"Hi.".data, 2⟩]
      (fun s hs => ?_) ⟨1, 0, 2, "Hi.".data⟩ ?_
    · rcases List.mem_singleton.mp hs with rfl
      show (0:ℚ) ≤ 2
      norm_num
    · rw [generateCues_hi_two]
      exact List.mem_singleton.mpr rfl
  · refine generate_srt_duration_edge_cases.2.1 ⟨[], 1, 0⟩ ⟨"Hi.".data, 0⟩ rfl
      ⟨1, 0, 0, "Hi.".data⟩ ?_
    have hc : (processSceneCues ⟨[], 1, 0⟩ ⟨"Hi.".data, 0⟩).cues
        = generateCues [⟨"Hi.".data, 0⟩] := rfl
    have h0 : generateCues [⟨"Hi.".data, 0⟩] = [⟨1, 0, 0, "Hi.".data⟩] := by
      rw [generateCues_single _ _ (by decide),
        (by decide : split_narration "Hi.".data 20 = ["Hi.".data])]
      simp only [cueSeq, segDuration, List.map_cons, List.map_nil,
        List.sum_cons, List.sum_nil, (by decide : ("Hi.".data).length = 3)]
      norm_num
    rw [hc, h0]
    exact List.mem_singleton.mpr rfl
  · exact (generate_srt_duration_edge_cases.2.2 ⟨[], 1, 0⟩ ⟨"Hi.".data, 2⟩
      (by decide)).1
  · exact (generate_srt_duration_edge_cases.2.2 ⟨[], 1, 0⟩ ⟨"Hi.".data, 2⟩
      (by decide)).2

/-- Witness for claim C7's monotonicity part at the scene list
`[⟨"Hi.", 2⟩]` with non-negative duration. -/
theorem generate_srt_cue_ordering_witness :
    List.Chain' (fun a b => a.startSeconds ≤ b.startSeconds)
      (generateCues [⟨"Hi.".data, 2⟩])
    ∧ processSceneCues ⟨[], 1, 0⟩ ⟨"  ".data, 3⟩ = ⟨[], 1, 0 + 3⟩ := by
  constructor
  · refine generate_srt_cue_ordering.2.2.1 [⟨"Hi.".data, 2⟩] (fun s hs => ?_)
    rcases List.mem_singleton.mp hs with rfl
    show (0:ℚ) ≤ 2
    norm_num
  · exact generate_srt_cue_ordering.2.2.2 ⟨[], 1, 0⟩ ⟨"  ".data, 3⟩ (by decide)

/-- Witness for claim C9 (amended) at the scene list `[⟨"Hi.", 2⟩]`: the
newline-free narration gives a newline-free cue text, and the lines list ends
with the blank separator. -/
theorem generate_srt_serialization_witness :
    '\n' ∉ ("Hi.".data)
    ∧ (srtLines [⟨"Hi.".data, 2⟩]).getLast? = some "" := by
  constructor
  · have := generate_srt_serialization.2.2.2.1 [⟨"Hi.".data, 2⟩]
      (fun s hs => by
        rcases List.mem_singleton.mp hs with rfl
        show '\n' ∉ ("Hi.".data)
        decide)
      ⟨1, 0, 2, "Hi.".data⟩
      (by rw [generateCues_hi_two]; exact List.mem_singleton.mpr rfl)
    exact this
  · refine generate_srt_serialization.2.2.2.2 [⟨"Hi.".data, 2⟩] ?_
    rw [generateCues_hi_two]
    simp

end GenerateSrt
